import Mathlib

/-!
Verification development for the MCU command/response protocol engine of the
zilia-mmep-control-gui repository (`src/mcu.py`).

The Python source is shallowly embedded: strings and byte buffers are
`List Char`, Python `int` is `Int`/`Nat`, Python `float` values produced by
parsing decimal protocol fields are modelled as `Rat` (the protocol only
carries plain decimal literals), raising/catching exceptions is modelled by
`Option`-valued total functions whose `none`/fallback branches correspond to
the `except` branches in the source.  Qt signal emissions are recorded in
ghost "observable" fields of the worker state.
-/

namespace MCU

/-! ## `MCUCommands` (src/mcu.py lines 6-23): the command encoder -/

/-- Decimal digit characters of `n`, most significant first, via a fuel
parameter so that the definition is structurally recursive (mirrors Python
`str(n)` for the non-negative counter). -/
def decDigitsAux : Nat → Nat → List Char
  | 0, _ => []
  | fuel + 1, n =>
    if n < 10 then [Nat.digitChar n]
    else decDigitsAux fuel (n / 10) ++ [Nat.digitChar (n % 10)]

def decDigits (n : Nat) : List Char := decDigitsAux (n + 1) n

/-- Zero-padding to a minimum width, as in Python `f"{n:04d}"`: the field
widens silently beyond the requested width. -/
def zfill (w : Nat) (s : List Char) : List Char :=
  List.replicate (w - s.length) '0' ++ s

/-- `MCUCommands._generate_com_id`: increment the counter, then render it as
a (minimum) 4-digit zero-padded decimal. Returns the id and new counter. -/
def generate_com_id (counter : Nat) : List Char × Nat :=
  (zfill 4 (decDigits (counter + 1)), counter + 1)

/-- `MCUCommands._calculate_checksum`: always returns `0`; the result is
never used by `_format_command`. -/
def calculate_checksum (_body : List Char) : Nat := 0

/-- Python `','.join(args)` on a list of strings. -/
def join_comma : List (List Char) → List Char
  | [] => []
  | [a] => a
  | a :: rest => a ++ [','] ++ join_comma rest

/-- `MCUCommands._format_command`: takes the current counter state, the base
command and the (already stringified) arguments; returns
`((wire line, com id), new counter)`.  Mirrors the source: with non-empty
args the body is `base ++ join(args, ",")`, otherwise the last character of
`base` is dropped (`base_command[:-1]`); then `,{com_id},1` is appended and
the line is terminated with `;\n`.-/
def format_command (counter : Nat) (base_command : List Char)
    (args : List (List Char)) : (List Char × List Char) × Nat :=
  let g := generate_com_id counter
  let com_id := g.1
  let command_part :=
    if args = [] then base_command.dropLast
    else base_command ++ join_comma args
  let command_body := command_part ++ [','] ++ com_id ++ [',', '1']
  ((command_body ++ [';', '\n'], com_id), g.2)

/-! ## Numeric field conversion (Python `int(...)` / `float(...)` on the
decimal protocol fields) -/

def digits_to_nat (s : List Char) : Nat :=
  s.foldl (fun a c => a * 10 + (c.toNat - 48)) 0

/-- Nonempty all-digit strings parse; anything else raises `ValueError`
(modelled as `none`). -/
def parse_nat (s : List Char) : Option Nat :=
  if s ≠ [] ∧ s.all Char.isDigit then some (digits_to_nat s) else none

/-- Python `int(s)` on protocol fields: optional sign, then digits. -/
def parse_int : List Char → Option Int
  | '-' :: rest => (parse_nat rest).map (fun n => -(n : Int))
  | '+' :: rest => (parse_nat rest).map (fun n => (n : Int))
  | s => (parse_nat s).map (fun n => (n : Int))

def parse_rat_unsigned (s : List Char) : Option Rat :=
  let ip := s.takeWhile (fun c => c ≠ '.')
  let rest := s.dropWhile (fun c => c ≠ '.')
  match rest with
  | [] =>
    if ip ≠ [] ∧ ip.all Char.isDigit then some ((digits_to_nat ip : Int) : Rat)
    else none
  | _ :: fp =>
    if fp.all (fun c => c ≠ '.') ∧ ip.all Char.isDigit ∧ fp.all Char.isDigit ∧
        (ip ≠ [] ∨ fp ≠ [])
    then some ((digits_to_nat ip : Rat) +
           (digits_to_nat fp : Rat) / ((10 : Rat) ^ fp.length))
    else none

/-- Python `float(s)` on protocol fields: optional sign, decimal literal
with optional fractional part. -/
def parse_rat : List Char → Option Rat
  | '-' :: rest => (parse_rat_unsigned rest).map (fun q => -q)
  | '+' :: rest => parse_rat_unsigned rest
  | s => parse_rat_unsigned s

/-! ## `MCUResponse` (src/mcu.py lines 25-67): frame classification -/

/-- A typed payload entry, mirroring the heterogeneous Python lists the
parser builds in place (`int` and `float` entries). -/
inductive Value where
  | intV : Int → Value
  | floatV : Rat → Value
deriving DecidableEq

/-- One classified frame: each constructor corresponds to one of the
parser's Qt signals (`flow_data_signal`, `temp_data_signal`,
`do_data_signal`, `ok_signal`, `error_signal`, `info_signal`). -/
inductive MCUEvent where
  | flow_data : List Value → MCUEvent
  | temp_data : List Value → MCUEvent
  | do_data : Int → Rat → Rat → MCUEvent
  | ok_data : List (List Char) → MCUEvent
  | error_data : List (List Char) → MCUEvent
  | info : List Char → MCUEvent
deriving DecidableEq

/-- The five header constants `OK, ERROR, FLOW, TEMP, DO` of `MCUResponse`. -/
def OKh : List Char := '$' :: 'O' :: 'K' :: [',']
def ERRORh : List Char := '$' :: 'E' :: 'R' :: 'R' :: 'O' :: 'R' :: [',']
def FLOWh : List Char := '$' :: 'F' :: 'L' :: 'O' :: 'W' :: [',']
def TEMPh : List Char := '$' :: 'T' :: 'E' :: 'M' :: 'P' :: [',']
def DOh : List Char := '$' :: 'D' :: 'O' :: [',']

def starts_with (p s : List Char) : Bool := List.isPrefixOf p s

def is_delim_char (c : Char) : Bool := c = ';' || c = '\n'

/-- Python `message.strip(';\n')`: remove any leading and trailing `';'` or
`'\n'` characters. -/
def strip_semi_nl (s : List Char) : List Char :=
  ((s.dropWhile is_delim_char).reverse.dropWhile is_delim_char).reverse

/-- Python `s.split(',')` (always returns at least one, possibly empty,
field). -/
def split_comma : List Char → List (List Char)
  | [] => [[]]
  | c :: cs =>
    if c = ',' then [] :: split_comma cs
    else
      match split_comma cs with
      | [] => [[c]]
      | f :: fs => (c :: f) :: fs

/-- The in-place conversion loop of the `$FLOW` branch: field 0 is `int`,
then odd positions are `int` and even positions are `float`.  Any failing
conversion raises in the source (modelled as `none`). -/
def conv_flow : Nat → List (List Char) → Option (List Value)
  | _, [] => some []
  | i, f :: fs =>
    let v : Option Value :=
      if i = 0 then (parse_int f).map Value.intV
      else if i % 2 = 1 then (parse_int f).map Value.intV
      else (parse_rat f).map Value.floatV
    match v, conv_flow (i + 1) fs with
    | some x, some xs => some (x :: xs)
    | _, _ => none

/-- The `$TEMP` branch conversion loop: field 0 is `int`, then positions
`i % 3 = 1` are `int`, `i % 3 = 2` are `float`, `i % 3 = 0` are `int`. -/
def conv_temp : Nat → List (List Char) → Option (List Value)
  | _, [] => some []
  | i, f :: fs =>
    let v : Option Value :=
      if i = 0 then (parse_int f).map Value.intV
      else if i % 3 = 1 then (parse_int f).map Value.intV
      else if i % 3 = 2 then (parse_rat f).map Value.floatV
      else (parse_int f).map Value.intV
    match v, conv_temp (i + 1) fs with
    | some x, some xs => some (x :: xs)
    | _, _ => none

/-- The `$DO` branch: `[int(payload[0]), float(payload[1]),
float(payload[2])]`; a missing field raises `IndexError` (modelled as
`none`); extra fields are ignored. -/
def conv_do : List (List Char) → Option (Int × Rat × Rat)
  | a :: b :: c :: _ =>
    match parse_int a, parse_rat b, parse_rat c with
    | some x, some y, some z => some (x, y, z)
    | _, _, _ => none
  | _ => none

/-- The diagnostic emitted by the `except` branch of `MCUResponse.parse`:
`f"Error parsing MCU message: '{message}'. Error: {e}"`.  The raw frame
text is embedded verbatim; the exception text is modelled by a fixed
marker. -/
def parse_err_msg (message : List Char) : List Char :=
  ("Error parsing MCU message: '").toList ++ message ++
    ("'. Error: invalid literal").toList

/-- `MCUResponse.parse`: strip the delimiter characters, return without any
emission when nothing remains, otherwise classify by header prefix in the
source's order (`$FLOW`, `$TEMP`, `$DO`, `$OK`, `$ERROR`, else `Info`);
a conversion failure in a telemetry branch is caught and reported through
`info_signal` as `parse_err_msg`. -/
def parse (message : List Char) : Option MCUEvent :=
  let s := strip_semi_nl message
  if s = [] then none
  else if starts_with FLOWh s then
    match conv_flow 0 (split_comma (s.drop FLOWh.length)) with
    | some p => some (.flow_data p)
    | none => some (.info (parse_err_msg message))
  else if starts_with TEMPh s then
    match conv_temp 0 (split_comma (s.drop TEMPh.length)) with
    | some p => some (.temp_data p)
    | none => some (.info (parse_err_msg message))
  else if starts_with DOh s then
    match conv_do (split_comma (s.drop DOh.length)) with
    | some r => some (.do_data r.1 r.2.1 r.2.2)
    | none => some (.info (parse_err_msg message))
  else if starts_with OKh s then some (.ok_data (split_comma (s.drop OKh.length)))
  else if starts_with ERRORh s then
    some (.error_data (split_comma (s.drop ERRORh.length)))
  else some (.info s)

/-! ## Frame delimiting (`MCUWorker.read_message`, src/mcu.py lines 127-138)

The worker appends incoming bytes to `serial_buffer` and repeatedly slices
off everything up to and including the first `;\n`, handing each slice to
the parser.  `drainAux acc cs` scans `cs` for the first `;\n` pair with the
already-scanned prefix held reversed in `acc`. -/

def drainAux : List Char → List Char → List (List Char) × List Char
  | acc, [] => ([], acc.reverse)
  | acc, [c] => ([], (c :: acc).reverse)
  | acc, c1 :: c2 :: rest =>
    if c1 = ';' ∧ c2 = '\n' then
      let r := drainAux [] rest
      ((acc.reverse ++ [';', '\n']) :: r.1, r.2)
    else drainAux (c1 :: acc) (c2 :: rest)

/-- Split a buffer into the list of complete frames (each including its
`;\n` delimiter, in order) and the remaining incomplete tail. -/
def drain (cs : List Char) : List (List Char) × List Char := drainAux [] cs

/-- Whether a buffer still contains a complete `;\n` delimiter
(`indexOf(b';\n') != -1` in the source). -/
def hasDelim : List Char → Bool
  | [] => false
  | c :: cs => (decide (c = ';') && decide (cs.head? = some '\n')) || hasDelim cs

/-- One `read_message`-shaped feed step at the parser level: append the
chunk to the buffer, drain all complete frames, classify each.  Returns the
emitted classifications (in order) and the new buffer. -/
def feedParse (buf chunk : List Char) : List MCUEvent × List Char :=
  ((drain (buf ++ chunk)).1.filterMap parse, (drain (buf ++ chunk)).2)

/-! ## `MCUWorker` (src/mcu.py lines 69-173): the queue/ack state machine

The worker runs single-threaded on the Qt event loop; each public entry
point (`submit_command`, `read_message`, the ack-timer callback,
`connect_mcu`, `disconnect_mcu`) services one event at a time.  The fields
mirror the Python attributes; the `writes`, `submits`, `log_msgs` and
`emitted` fields are ghost observables recording `self.mcu.write(...)`
calls, `submit_command` calls, `log_signal` emissions and parser-signal
dispatches; `acked_count`/`timeout_count`/`discard_count` count how many
outstanding commands were resolved by a matching ack, by the ack timeout,
or discarded by a disconnect. -/

structure WorkerState where
  /-- `self.mcu is not None` -/
  has_mcu : Bool
  /-- whether `self.ack_timer` is started and not yet stopped/fired -/
  ack_timer_running : Bool
  /-- `self.connected` -/
  connected : Bool
  /-- `self.command_queue`: pending `(command, com_id)` pairs, FIFO -/
  command_queue : List (List Char × List Char)
  /-- `self.waiting_for_com_id` -/
  waiting_for_com_id : Option (List Char)
  /-- `self.serial_buffer` -/
  serial_buffer : List Char
  writes : List (List Char × List Char)
  submits : List (List Char × List Char)
  log_msgs : List (List Char)
  emitted : List MCUEvent
  acked_count : Nat
  timeout_count : Nat
  discard_count : Nat
deriving DecidableEq

/-- The state after `MCUWorker.__init__`. -/
def initState : WorkerState :=
  { has_mcu := false, ack_timer_running := false, connected := false,
    command_queue := [], waiting_for_com_id := none, serial_buffer := [],
    writes := [], submits := [], log_msgs := [], emitted := [],
    acked_count := 0, timeout_count := 0, discard_count := 0 }

def drop_msg (com_id : List Char) : List Char :=
  ("Command ").toList ++ com_id ++ (" dropped: MCU not connected.").toList

def timeout_msg (com_id : List Char) : List Char :=
  ("Timeout: No ACK received for command ").toList ++ com_id ++
    (". Moving on.").toList

def conn_ok_msg : List Char := ("Connection to MCU successful").toList
def no_mcu_msg : List Char := ("No MCU connected").toList
def disconnected_msg : List Char := ("Disconnected from MCU").toList

/-- `MCUWorker._process_queue`: if no ack is awaited and the queue is
non-empty, pop the head; when connected with an open port, write it to the
transport, record the outstanding id and start the ack timer; otherwise
drop it with a log entry. -/
def process_queue (s : WorkerState) : WorkerState :=
  match s.waiting_for_com_id, s.command_queue with
  | none, (command, com_id) :: rest =>
    if s.connected && s.has_mcu then
      { s with command_queue := rest, waiting_for_com_id := some com_id,
               writes := s.writes ++ [(command, com_id)],
               ack_timer_running := true }
    else
      { s with command_queue := rest,
               log_msgs := s.log_msgs ++ [drop_msg com_id] }
  | _, _ => s

/-- `MCUWorker._handle_mcu_ack`: on an `$OK` payload whose first field
matches the awaited id, stop the timer and clear the outstanding slot.  The
source then schedules `_process_queue` through `QTimer.singleShot(0, ...)`;
the returned flag records that such a deferred call was scheduled (it runs
after the current event completes, see `read_message`). -/
def handle_mcu_ack (s : WorkerState) : List (List Char) → WorkerState × Bool
  | [] => (s, false)
  | ack_com_id :: _ =>
    if some ack_com_id = s.waiting_for_com_id then
      ({ s with ack_timer_running := false, waiting_for_com_id := none,
                acked_count := s.acked_count + 1 }, true)
    else (s, false)

/-- `MCUWorker._handle_ack_timeout`: if a command is outstanding, abandon
it with a log entry and immediately try the next queued command.  The
timed-out command is neither retried nor re-queued. -/
def handle_ack_timeout (s : WorkerState) : WorkerState :=
  match s.waiting_for_com_id with
  | some timed_out_id =>
    process_queue
      { s with waiting_for_com_id := none,
               timeout_count := s.timeout_count + 1,
               log_msgs := s.log_msgs ++ [timeout_msg timed_out_id] }
  | none => s

/-- Dispatch of one classified frame through the parser's signals, as wired
in `MCUWorker.__init__`: every frame is fanned out to its subscribers
(recorded in `emitted`), `info` frames additionally reach `log_signal`, and
`ok` frames additionally invoke `_handle_mcu_ack`. -/
def dispatch_frame (s : WorkerState) (ev : MCUEvent) : WorkerState × Bool :=
  match ev with
  | .ok_data payload =>
    handle_mcu_ack { s with emitted := s.emitted ++ [ev] } payload
  | .info txt =>
    ({ s with emitted := s.emitted ++ [ev], log_msgs := s.log_msgs ++ [txt] },
     false)
  | _ => ({ s with emitted := s.emitted ++ [ev] }, false)

def dispatch_all (s : WorkerState) : List MCUEvent → WorkerState × Bool
  | [] => (s, false)
  | ev :: evs =>
    let q := dispatch_frame s ev
    let r := dispatch_all q.1 evs
    (r.1, q.2 || r.2)

/-- `MCUWorker.read_message`: no-op when `self.mcu` is `None`; otherwise
append the received bytes to the buffer, slice off every complete `;\n`
frame, and parse-and-dispatch each in order.  A `singleShot(0)` deferred
`_process_queue` scheduled by an ack in the batch runs once the batch is
done. -/
def read_message (s : WorkerState) (incoming_data : List Char) : WorkerState :=
  if s.has_mcu then
    let d := drain (s.serial_buffer ++ incoming_data)
    let p := dispatch_all { s with serial_buffer := d.2 } (d.1.filterMap parse)
    if p.2 then process_queue p.1 else p.1
  else s

/-- `MCUWorker.submit_command`: always append to the queue, then run
`_process_queue`. -/
def submit_command (s : WorkerState) (command com_id : List Char) :
    WorkerState :=
  process_queue
    { s with command_queue := s.command_queue ++ [(command, com_id)],
             submits := s.submits ++ [(command, com_id)] }

/-- `MCUWorker.connect_mcu`: returns immediately when already connected;
otherwise a fresh (stopped) ack timer is installed and the port scan runs.
The physical scan/open outcome is external, abstracted by `port_found`
(a matching port was found, so `self.mcu` is assigned) and `opened` (the
port opened, so `self.connected` is set). -/
def connect_mcu (s : WorkerState) (port_found opened : Bool) : WorkerState :=
  if s.connected then s
  else
    let s1 := { s with ack_timer_running := false }
    if port_found then
      if opened then
        { s1 with has_mcu := true, connected := true,
                  log_msgs := s1.log_msgs ++ [conn_ok_msg] }
      else
        { s1 with has_mcu := true,
                  log_msgs := s1.log_msgs ++ [no_mcu_msg] }
    else { s1 with log_msgs := s1.log_msgs ++ [no_mcu_msg] }

/-- `MCUWorker.disconnect_mcu`: close the port, stop the timer, clear the
connected flag, the receive buffer, the pending queue and the outstanding
slot. -/
def disconnect_mcu (s : WorkerState) : WorkerState :=
  { s with ack_timer_running := false, connected := false,
           serial_buffer := [], command_queue := [],
           discard_count :=
             s.discard_count + (if s.waiting_for_com_id.isSome then 1 else 0),
           waiting_for_com_id := none,
           log_msgs := s.log_msgs ++ [disconnected_msg] }

/-- The externally driven events the worker services, one at a time. -/
inductive WEvent where
  | submit : List Char → List Char → WEvent
  | recv : List Char → WEvent
  | timerFire : WEvent
  | connect : Bool → Bool → WEvent
  | disconnect : WEvent
deriving DecidableEq

/-- One serviced event.  The ack timer only fires while it is running (it
is single-shot, so it is no longer running once the callback starts). -/
def step (s : WorkerState) : WEvent → WorkerState
  | .submit command com_id => submit_command s command com_id
  | .recv chunk => read_message s chunk
  | .timerFire =>
    if s.ack_timer_running then
      handle_ack_timeout { s with ack_timer_running := false }
    else s
  | .connect port_found opened => connect_mcu s port_found opened
  | .disconnect => disconnect_mcu s

/-- Execute a sequence of events from a starting state. -/
def run (s : WorkerState) (evs : List WEvent) : WorkerState :=
  evs.foldl step s

end MCU

namespace MCU

theorem hasDelim_nil : hasDelim [] = false := rfl

theorem hasDelim_cons (c : Char) (cs : List Char) :
    hasDelim (c :: cs) =
      ((decide (c = ';') && decide (cs.head? = some '\n')) || hasDelim cs) := rfl

theorem hasDelim_tail {c : Char} {cs : List Char}
    (h : hasDelim (c :: cs) = false) : hasDelim cs = false := by
  rw [hasDelim_cons] at h
  exact (Bool.or_eq_false_iff.mp h).2

theorem hasDelim_single (c : Char) : hasDelim [c] = false := by
  simp [hasDelim]

theorem hasDelim_take_one (l : List Char) : hasDelim (l.take 1) = false := by
  cases l with
  | nil => rfl
  | cons c cs => simp [hasDelim]

theorem hasDelim_append_left {a : List Char} (b : List Char)
    (h : hasDelim a = true) : hasDelim (a ++ b) = true := by
  induction a with
  | nil => simp [hasDelim] at h
  | cons x a' ih =>
    rw [hasDelim_cons] at h
    rcases Bool.or_eq_true_iff.mp h with h1 | h2
    · rcases Bool.and_eq_true_iff.mp h1 with ⟨hx, hh⟩
      have hx' : x = ';' := of_decide_eq_true hx
      have hh' : a'.head? = some '\n' := of_decide_eq_true hh
      cases a' with
      | nil => simp at hh'
      | cons y a'' =>
        simp at hh'
        subst hx' hh'
        simp [hasDelim_cons]
    · rw [List.cons_append, hasDelim_cons, ih h2]
      simp

theorem hasDelim_of_append_false {a b : List Char}
    (h : hasDelim (a ++ b) = false) : hasDelim a = false := by
  by_contra hne
  have : hasDelim a = true := by
    cases hha : hasDelim a
    · exact absurd hha hne
    · rfl
  rw [hasDelim_append_left b this] at h
  exact absurd h (by simp)

end MCU

namespace MCU

theorem hasDelim_concat_false {a : List Char} {y : Char}
    (h : hasDelim a = false) (hp : a.getLast? = some ';' → y ≠ '\n') :
    hasDelim (a ++ [y]) = false := by
  induction a with
  | nil =>
    exact hasDelim_single y
  | cons x a' ih =>
    rw [List.cons_append, hasDelim_cons]
    have h2 : hasDelim a' = false := hasDelim_tail h
    cases a' with
    | nil =>
      have hx : ¬(x = ';' ∧ y = '\n') := by
        intro hxy
        exact hp (by simp [hxy.1]) hxy.2
      simp only [List.nil_append, List.head?_cons, hasDelim_single, Bool.or_false]
      by_cases hx1 : x = ';'
      · by_cases hy1 : y = '\n'
        · exact absurd ⟨hx1, hy1⟩ hx
        · simp [hy1]
      · simp [hx1]
    | cons z a'' =>
      have hlast : (z :: a'').getLast? = (x :: z :: a'').getLast? := by
        simp [List.getLast?_cons_cons]
      have ihh := ih h2 (fun hl => hp (hlast ▸ hl))
      have hfst : (decide (x = ';') && decide ((z :: a'').head? = some '\n')) = false := by
        rw [hasDelim_cons] at h
        exact (Bool.or_eq_false_iff.mp h).1
      rw [Bool.or_eq_false_iff]
      constructor
      · simpa using hfst
      · exact ihh

end MCU

namespace MCU

theorem hasDelim_append_take_one {a : List Char} (b : List Char)
    (h : hasDelim a = false)
    (hp : a.getLast? = some ';' → b.head? ≠ some '\n') :
    hasDelim (a ++ b.take 1) = false := by
  cases b with
  | nil => simpa using h
  | cons y b' =>
    simp only [List.take_succ_cons, List.take_zero]
    exact hasDelim_concat_false h (fun hl hy => hp hl (by simp [hy]))

theorem hasDelim_of_not_nl {l : List Char} (h : '\n' ∉ l) :
    hasDelim l = false := by
  induction l with
  | nil => rfl
  | cons c cs ih =>
    rw [hasDelim_cons, Bool.or_eq_false_iff]
    refine ⟨?_, ih (fun hm => h (List.mem_cons_of_mem c hm))⟩
    cases cs with
    | nil => simp
    | cons d cs' =>
      have : d ≠ '\n' := fun hd => h (by simp [hd])
      simp [this]

/-- Pushing a pair-free chunk through the scanner only moves it into the
accumulator. -/
theorem drainAux_push : ∀ (l : List Char) (acc cs : List Char),
    hasDelim (l ++ cs.take 1) = false →
    drainAux acc (l ++ cs) = drainAux (l.reverse ++ acc) cs := by
  intro l
  induction l with
  | nil => intro acc cs _; simp
  | cons x l' ih =>
    intro acc cs h
    have htail : hasDelim (l' ++ cs.take 1) = false := hasDelim_tail h
    have hstep : drainAux acc (x :: (l' ++ cs)) = drainAux (x :: acc) (l' ++ cs) := by
      cases hlc : l' ++ cs with
      | nil => rfl
      | cons c2 rest =>
        have hnp : ¬(x = ';' ∧ c2 = '\n') := by
          intro ⟨hx, hc⟩
          subst hx hc
          rcases l' with _ | ⟨z, l''⟩
          · simp only [List.nil_append] at hlc
            subst hlc
            simp [hasDelim, List.nil_append] at h
          · simp only [List.cons_append] at hlc
            cases hlc
            simp [hasDelim] at h
        simp [drainAux, hnp]
    calc drainAux acc ((x :: l') ++ cs)
        = drainAux (x :: acc) (l' ++ cs) := by rw [List.cons_append]; exact hstep
      _ = drainAux (l'.reverse ++ (x :: acc)) cs := ih (x :: acc) cs htail
      _ = drainAux ((x :: l').reverse ++ acc) cs := by
          rw [List.reverse_cons, List.append_assoc]
          rfl

end MCU

namespace MCU

/-- A buffer without a complete delimiter yields no frame. -/
theorem drainAux_no_delim (acc : List Char) {l : List Char}
    (h : hasDelim l = false) :
    drainAux acc l = ([], acc.reverse ++ l) := by
  have h1 : hasDelim (l ++ ([] : List Char).take 1) = false := by simpa using h
  have := drainAux_push l acc [] h1
  rw [List.append_nil] at this
  rw [this]
  simp [drainAux]

/-- The first complete frame is sliced off exactly at the first `;\n`. -/
theorem drainAux_first_frame (acc : List Char) {pre : List Char}
    (rest : List Char) (h : hasDelim pre = false) :
    drainAux acc (pre ++ ';' :: '\n' :: rest) =
      ((acc.reverse ++ pre ++ [';', '\n']) :: (drainAux [] rest).1,
       (drainAux [] rest).2) := by
  have h1 : hasDelim (pre ++ (';' :: '\n' :: rest).take 1) = false := by
    refine hasDelim_append_take_one _ h ?_
    intro _ hh
    simp at hh
  rw [drainAux_push pre acc (';' :: '\n' :: rest) h1]
  simp only [drainAux, if_pos (And.intro rfl rfl)]
  rw [List.reverse_append, List.reverse_reverse]
  constructor

/-- The leftover after a drain never contains a complete delimiter. -/
theorem drainAux_rest_no_delim :
    ∀ (acc cs : List Char),
      hasDelim (acc.reverse ++ cs.take 1) = false →
      hasDelim (drainAux acc cs).2 = false := by
  intro acc cs
  induction acc, cs using drainAux.induct with
  | case1 acc =>
    intro h
    simpa [drainAux] using h
  | case2 acc c =>
    intro h
    simpa [drainAux] using h
  | case3 acc c1 c2 rest hpair ih =>
    intro _
    obtain ⟨h1, h2⟩ := hpair
    subst h1 h2
    rw [show drainAux acc (';' :: '\n' :: rest) =
        (((acc.reverse ++ [';', '\n']) :: (drainAux [] rest).1,
          (drainAux [] rest).2) : List (List Char) × List Char) from by
      simp [drainAux]]
    exact ih (by simpa using hasDelim_take_one rest)
  | case4 acc c1 c2 rest hnp ih =>
    intro h
    rw [show drainAux acc (c1 :: c2 :: rest) = drainAux (c1 :: acc) (c2 :: rest) from by
      simp [drainAux, hnp]]
    refine ih ?_
    simp only [List.reverse_cons]
    simp only [List.take_succ_cons, List.take_zero] at h ⊢
    refine hasDelim_concat_false h ?_
    intro hl hc2
    rw [List.getLast?_concat] at hl
    have hc1 : c1 = ';' := by simpa using hl
    exact hnp ⟨hc1, hc2⟩

end MCU

namespace MCU

/-- Draining `cs ++ c` is the same as draining `cs` and then re-draining
the leftover with `c` appended: the streaming scanner is insensitive to
how the byte stream is chunked. -/
theorem drainAux_split :
    ∀ (acc cs : List Char), ∀ c : List Char,
      hasDelim (acc.reverse ++ (cs ++ c).take 1) = false →
      drainAux acc (cs ++ c) =
        ((drainAux acc cs).1 ++ (drainAux [] ((drainAux acc cs).2 ++ c)).1,
         (drainAux [] ((drainAux acc cs).2 ++ c)).2) := by
  intro acc cs
  induction acc, cs using drainAux.induct with
  | case1 acc =>
    intro c h
    simp only [List.nil_append] at h ⊢
    have hp := drainAux_push acc.reverse [] c (by simpa using h)
    simp only [List.reverse_reverse, List.append_nil] at hp
    simp [drainAux, ← hp]
  | case2 acc x =>
    intro c h
    simp only [List.singleton_append] at h
    have hone : drainAux acc [x] = ([], acc.reverse ++ [x]) :=
      drainAux_no_delim acc (hasDelim_single x)
    rw [hone]
    simp only [List.nil_append]
    by_cases hpair : x = ';' ∧ c.head? = some '\n'
    · obtain ⟨hx, hc⟩ := hpair
      subst hx
      cases c with
      | nil => simp at hc
      | cons y c' =>
        have hy : y = '\n' := by simpa using hc
        subst hy
        have hacc : hasDelim acc.reverse = false := by
          refine hasDelim_of_append_false (a := acc.reverse) (b := [';']) ?_
          simpa using h
        rw [List.singleton_append]
        rw [show drainAux acc (';' :: '\n' :: c') =
            ((acc.reverse ++ [';', '\n']) :: (drainAux [] c').1,
             (drainAux [] c').2) from by simp [drainAux]]
        have hres : (acc.reverse ++ [';']) ++ '\n' :: c' =
            acc.reverse ++ ';' :: '\n' :: c' := by
          simp
        rw [hres, drainAux_first_frame [] c' hacc]
        simp
    · have hxc : hasDelim ([x] ++ c.take 1) = false := by
        cases c with
        | nil => simpa using hasDelim_single x
        | cons y c' =>
          have hnxy : ¬(x = ';' ∧ y = '\n') := by
            intro ⟨h1, h2⟩
            exact hpair ⟨h1, by simp [h2]⟩
          simp only [List.take_succ_cons, List.take_zero]
          refine hasDelim_concat_false (hasDelim_single x) ?_
          intro hl hy
          have hx : x = ';' := by simpa using hl
          exact hnxy ⟨hx, hy⟩
      have hL : drainAux acc ([x] ++ c) = drainAux (x :: acc) c := by
        simpa using drainAux_push [x] acc c hxc
      have hAssoc : (acc.reverse ++ [x]) ++ c = acc.reverse ++ ([x] ++ c) := by
        simp
      have hR : drainAux [] ((acc.reverse ++ [x]) ++ c) = drainAux (x :: acc) c := by
        rw [hAssoc]
        have h2 : hasDelim ((acc.reverse ++ [x]) ++ c.take 1) = false := by
          cases c with
          | nil =>
            simpa using (by simpa using h : hasDelim (acc.reverse ++ [x]) = false)
          | cons y c' =>
            simp only [List.take_succ_cons, List.take_zero]
            refine hasDelim_concat_false (by simpa using h) ?_
            intro hl hy
            rw [List.getLast?_concat] at hl
            have hx : x = ';' := by simpa using hl
            exact hpair ⟨hx, by simp [hy]⟩
        have := drainAux_push (acc.reverse ++ [x]) [] c (by
          rw [List.append_assoc] at h2 ⊢
          simpa using h2)
        simpa [List.reverse_append] using this
      rw [hL, hR]
  | case3 acc c1 c2 rest hpair ih =>
    intro c h
    obtain ⟨h1, h2⟩ := hpair
    subst h1 h2
    rw [show (';' :: '\n' :: rest) ++ c = ';' :: '\n' :: (rest ++ c) from rfl]
    rw [show drainAux acc (';' :: '\n' :: (rest ++ c)) =
        ((acc.reverse ++ [';', '\n']) :: (drainAux [] (rest ++ c)).1,
         (drainAux [] (rest ++ c)).2) from by simp [drainAux]]
    rw [show drainAux acc (';' :: '\n' :: rest) =
        ((acc.reverse ++ [';', '\n']) :: (drainAux [] rest).1,
         (drainAux [] rest).2) from by simp [drainAux]]
    have ihh := ih c (by simpa using hasDelim_take_one (rest ++ c))
    rw [ihh]
    simp
  | case4 acc c1 c2 rest hnp ih =>
    intro c h
    rw [show (c1 :: c2 :: rest) ++ c = c1 :: ((c2 :: rest) ++ c) from rfl]
    have hstep : ∀ t : List Char, drainAux acc (c1 :: c2 :: t) = drainAux (c1 :: acc) (c2 :: t) := by
      intro t
      simp [drainAux, hnp]
    rw [show c1 :: ((c2 :: rest) ++ c) = c1 :: c2 :: (rest ++ c) from rfl, hstep]
    rw [hstep rest]
    have hH : hasDelim ((c1 :: acc).reverse ++ ((c2 :: rest) ++ c).take 1) = false := by
      simp only [List.reverse_cons, List.cons_append, List.take_succ_cons,
        List.take_zero] at h ⊢
      refine hasDelim_concat_false (by simpa using h) ?_
      intro hl hc2
      rw [List.getLast?_concat] at hl
      have hc1 : c1 = ';' := by simpa using hl
      exact hnp ⟨hc1, hc2⟩
    exact ih c hH

end MCU

namespace MCU

theorem feedParse_split (cs : List Char) (i : Nat) :
    (feedParse [] (cs.take i)).1 ++
      (feedParse (feedParse [] (cs.take i)).2 (cs.drop i)).1 =
        (feedParse [] cs).1 ∧
    (feedParse (feedParse [] (cs.take i)).2 (cs.drop i)).2 =
        (feedParse [] cs).2 ∧
    hasDelim (feedParse [] (cs.take i)).2 = false ∧
    hasDelim (feedParse (feedParse [] (cs.take i)).2 (cs.drop i)).2 = false := by
  have hH : hasDelim (([] : List Char).reverse ++
      ((cs.take i ++ cs.drop i)).take 1) = false := by
    rw [List.take_append_drop]
    simpa using hasDelim_take_one cs
  have hsplit := drainAux_split [] (cs.take i) (cs.drop i) hH
  rw [List.take_append_drop] at hsplit
  have hf1 : feedParse [] (cs.take i) =
      ((drainAux [] (cs.take i)).1.filterMap parse, (drainAux [] (cs.take i)).2) := by
    simp [feedParse, drain]
  have hfull : feedParse [] cs =
      ((drainAux [] cs).1.filterMap parse, (drainAux [] cs).2) := by
    simp [feedParse, drain]
  refine ⟨?_, ?_, ?_, ?_⟩
  · rw [hf1, hfull]
    simp only [feedParse, drain]
    rw [hsplit]
    simp [List.filterMap_append]
  · rw [hf1, hfull]
    simp only [feedParse, drain]
    rw [hsplit]
  · rw [hf1]
    exact drainAux_rest_no_delim [] (cs.take i)
      (by simpa using hasDelim_take_one (cs.take i))
  · rw [hf1]
    simp only [feedParse, drain]
    exact drainAux_rest_no_delim [] ((drainAux [] (cs.take i)).2 ++ cs.drop i)
      (by simpa using hasDelim_take_one ((drainAux [] (cs.take i)).2 ++ cs.drop i))

end MCU

namespace MCU

/-- The concrete two-frame telemetry stream used by the spec's parser
framing property. -/
def demo_stream : List Char := ("$FLOW,1000,1,2.5;\n$DO,1000,0.01,0.02;\n").toList

end MCU

unseal Rat.mul Rat.add Rat.inv

namespace MCU

/-- C9.  Parser split-invariance: feeding any byte sequence in two chunks
yields the same classified frames in the same order as feeding it at once,
and after every feed call the buffer holds no complete `;\n`-terminated
frame; in particular the concrete stream
`"$FLOW,1000,1,2.5;\n$DO,1000,0.01,0.02;\n"` split at any point yields
exactly one flow sample `(1000, [(1, 2.5)])` then one DO sample
`(1000, 0.01, 0.02)` with an empty buffer. -/
theorem parser_split_invariance (cs : List Char) (i : Nat) :
    ((feedParse [] (cs.take i)).1 ++
        (feedParse (feedParse [] (cs.take i)).2 (cs.drop i)).1 =
          (feedParse [] cs).1 ∧
      (feedParse (feedParse [] (cs.take i)).2 (cs.drop i)).2 =
          (feedParse [] cs).2 ∧
      hasDelim (feedParse [] (cs.take i)).2 = false ∧
      hasDelim (feedParse (feedParse [] (cs.take i)).2 (cs.drop i)).2 = false) ∧
    ((feedParse [] (demo_stream.take i)).1 ++
        (feedParse (feedParse [] (demo_stream.take i)).2 (demo_stream.drop i)).1 =
          [.flow_data [.intV 1000, .intV 1, .floatV (5 / 2)],
           .do_data 1000 (1 / 100) (1 / 50)] ∧
      (feedParse (feedParse [] (demo_stream.take i)).2 (demo_stream.drop i)).2 =
          []) := by
  refine ⟨feedParse_split cs i, ?_, ?_⟩
  · rw [(feedParse_split demo_stream i).1]
    decide
  · rw [(feedParse_split demo_stream i).2.1]
    decide

end MCU

namespace MCU

theorem digitChar_toNat_sub : ∀ n : Nat, n < 10 → (Nat.digitChar n).toNat - 48 = n := by
  decide

theorem digits_to_nat_concat (a : List Char) (c : Char) :
    digits_to_nat (a ++ [c]) = digits_to_nat a * 10 + (c.toNat - 48) := by
  simp [digits_to_nat, List.foldl_append]

theorem decDigitsAux_roundtrip :
    ∀ (fuel n : Nat), n < fuel → digits_to_nat (decDigitsAux fuel n) = n := by
  intro fuel
  induction fuel with
  | zero => intro n hn; omega
  | succ fuel ih =>
    intro n hn
    by_cases h10 : n < 10
    · simp only [decDigitsAux, if_pos h10]
      have := digitChar_toNat_sub n h10
      simp [digits_to_nat, this]
    · simp only [decDigitsAux, if_neg h10]
      rw [digits_to_nat_concat]
      have hdiv : n / 10 < fuel := by
        have h1 : n / 10 < n := Nat.div_lt_self (by omega) (by omega)
        omega
      rw [ih (n / 10) hdiv, digitChar_toNat_sub (n % 10) (Nat.mod_lt n (by omega))]
      omega

theorem decDigitsAux_length :
    ∀ (fuel k n : Nat), 0 < k → n < 10 ^ k → n < fuel →
      (decDigitsAux fuel n).length ≤ k := by
  intro fuel
  induction fuel with
  | zero => intro k n _ _ h; omega
  | succ fuel ih =>
    intro k n hk hnk hn
    by_cases h10 : n < 10
    · simp only [decDigitsAux, if_pos h10]
      simpa using hk
    · simp only [decDigitsAux, if_neg h10]
      have hk2 : 2 ≤ k := by
        by_contra hlt
        have : k = 1 := by omega
        subst this
        simp at hnk
        omega
      have hpow : 10 ^ (k - 1) * 10 = 10 ^ k := by
        have hsub : k - 1 + 1 = k := by omega
        calc 10 ^ (k - 1) * 10 = 10 ^ (k - 1 + 1) := by ring
          _ = 10 ^ k := by rw [hsub]
      have hdivk : n / 10 < 10 ^ (k - 1) := by
        rw [Nat.div_lt_iff_lt_mul (by omega : (0 : Nat) < 10)]
        omega
      have hfuel : n / 10 < fuel := by
        have h1 : n / 10 < n := Nat.div_lt_self (by omega) (by omega)
        omega
      have ihh := ih (k - 1) (n / 10) (by omega) hdivk hfuel
      rw [List.length_append]
      simp only [List.length_singleton]
      omega

theorem zfill_length {w : Nat} {s : List Char} (h : s.length ≤ w) :
    (zfill w s).length = w := by
  simp [zfill]
  omega

theorem digits_to_nat_zfill (w : Nat) (s : List Char) :
    digits_to_nat (zfill w s) = digits_to_nat s := by
  unfold zfill digits_to_nat
  rw [List.foldl_append]
  have hz : ∀ k : Nat, List.foldl (fun a c => a * 10 + (c.toNat - 48)) 0
      (List.replicate k (Char.ofNat 48)) = 0 := by
    intro k
    induction k with
    | zero => rfl
    | succ k ih => simpa [List.replicate_succ] using ih
  have : ('0' : Char) = Char.ofNat 48 := rfl
  rw [this, hz]

end MCU

namespace MCU

/-- C3.  Encoder correctness: `_format_command` emits the wire line
`{body};\n` where the body is the base command joined with the args (or the
base command with its trailing comma stripped when the args are empty)
followed by `,{id},1` with the literal `1` never computed (the checksum
function is constantly `0`); the id is the zero-padded 4-digit decimal of
the incremented counter, so successive calls yield ids whose numeric value
increases by exactly 1, starting from `0001`. -/
theorem encoder_wire_format (counter : Nat) (base_command : List Char)
    (args : List (List Char)) :
    (format_command counter base_command args).2 = counter + 1 ∧
    (format_command counter base_command args).1.2 =
      zfill 4 (decDigits (counter + 1)) ∧
    digits_to_nat ((format_command counter base_command args).1.2) =
      counter + 1 ∧
    (counter = 0 →
      (format_command counter base_command args).1.2 = ['0', '0', '0', '1']) ∧
    (counter + 1 < 10000 →
      ((format_command counter base_command args).1.2).length = 4) ∧
    (args ≠ [] → (format_command counter base_command args).1.1 =
      base_command ++ join_comma args ++ [','] ++
        (format_command counter base_command args).1.2 ++
          [',', '1', ';', '\n']) ∧
    (∀ p, args = [] → base_command = p ++ [','] →
      (format_command counter base_command args).1.1 =
        p ++ [','] ++ (format_command counter base_command args).1.2 ++
          [',', '1', ';', '\n']) ∧
    (∀ body, calculate_checksum body = 0) := by
  refine ⟨rfl, rfl, ?_, ?_, ?_, ?_, ?_, fun _ => rfl⟩
  · show digits_to_nat (zfill 4 (decDigits (counter + 1))) = counter + 1
    rw [digits_to_nat_zfill]
    exact decDigitsAux_roundtrip (counter + 2) (counter + 1) (by omega)
  · intro h
    subst h
    show zfill 4 (decDigits (0 + 1)) = ['0', '0', '0', '1']
    decide
  · intro h
    show (zfill 4 (decDigits (counter + 1))).length = 4
    refine zfill_length ?_
    exact decDigitsAux_length (counter + 2) 4 (counter + 1) (by omega)
      (by omega) (by omega)
  · intro h
    simp only [format_command, generate_com_id, if_neg h]
    simp
  · intro p h hbase
    subst h hbase
    simp only [format_command, generate_com_id, if_pos rfl]
    rw [List.dropLast_concat]
    simp

/-- Witness for C3 at the spec's concrete example. -/
theorem encoder_wire_format_witness :
    (format_command 0 (("$FLOWCTRL,").toList) []).1.1 =
      ("$FLOWCTRL").toList ++ [','] ++
        (format_command 0 (("$FLOWCTRL,").toList) []).1.2 ++
          [',', '1', ';', '\n'] ∧
    (format_command 0 (("$FLOWCTRL,").toList) []).1.2 = ['0', '0', '0', '1'] ∧
    ((format_command 0 (("$FLOWCTRL,").toList) []).1.2).length = 4 := by
  have h := encoder_wire_format 0 (("$FLOWCTRL,").toList) []
  exact ⟨h.2.2.2.2.2.2.1 (("$FLOWCTRL").toList) rfl (by decide),
         h.2.2.2.1 rfl, h.2.2.2.2.1 (by norm_num)⟩

end MCU

namespace MCU

/-- C10 as written is false on the code: a frame consisting only of the
delimiter strips to the empty string and `parse` returns without emitting
anything, not an `Info` frame. -/
theorem info_fallback_counterexample :
    parse ((";\n").toList) = none ∧ (feedParse [] ((";\n").toList)).1 = [] := by
  constructor
  · decide
  · decide

/-- C10 (amended).  Every complete frame whose trimmed content is non-empty
and does not start with one of the five headers is classified as exactly
one `Info` frame carrying the trimmed text; a frame whose content consists
only of `';'`/`'\n'` characters (empty once trimmed) yields no
classification at all. -/
theorem info_fallback (message : List Char) :
    (strip_semi_nl message = [] → parse message = none) ∧
    (strip_semi_nl message ≠ [] →
      starts_with FLOWh (strip_semi_nl message) = false →
      starts_with TEMPh (strip_semi_nl message) = false →
      starts_with DOh (strip_semi_nl message) = false →
      starts_with OKh (strip_semi_nl message) = false →
      starts_with ERRORh (strip_semi_nl message) = false →
      parse message = some (.info (strip_semi_nl message))) := by
  constructor
  · intro h
    unfold parse
    simp [h]
  · intro hne h3 h4 h5 h1 h2
    unfold parse
    simp [hne, h1, h2, h3, h4, h5]

/-- Witness for C10 (amended) at concrete frames. -/
theorem info_fallback_witness :
    parse ((";\n").toList) = none ∧
    parse (("hello world;\n").toList) =
      some (.info (("hello world").toList)) := by
  refine ⟨(info_fallback ((";\n").toList)).1 (by decide), ?_⟩
  have h := (info_fallback (("hello world;\n").toList)).2
    (by decide) (by decide) (by decide) (by decide) (by decide) (by decide)
  rw [h]
  decide

end MCU

namespace MCU

theorem starts_with_spec :
    ∀ (p s : List Char), starts_with p s = true → ∃ u, s = p ++ u := by
  intro p
  induction p with
  | nil => intro s _; exact ⟨s, rfl⟩
  | cons c p' ih =>
    intro s h
    cases s with
    | nil => simp [starts_with, List.isPrefixOf] at h
    | cons b s' =>
      simp only [starts_with, List.isPrefixOf, Bool.and_eq_true, beq_iff_eq] at h
      obtain ⟨hb, hrest⟩ := h
      obtain ⟨u, hu⟩ := ih s' hrest
      exact ⟨u, by rw [hb, hu]; rfl⟩

theorem temp_not_flow {s : List Char} (h : starts_with TEMPh s = true) :
    starts_with FLOWh s = false := by
  obtain ⟨u, rfl⟩ := starts_with_spec _ _ h
  rfl

theorem do_not_flow {s : List Char} (h : starts_with DOh s = true) :
    starts_with FLOWh s = false := by
  obtain ⟨u, rfl⟩ := starts_with_spec _ _ h
  rfl

theorem do_not_temp {s : List Char} (h : starts_with DOh s = true) :
    starts_with TEMPh s = false := by
  obtain ⟨u, rfl⟩ := starts_with_spec _ _ h
  rfl

end MCU

namespace MCU

/-- C4.  Malformed-frame resilience: a telemetry frame whose numeric
conversion fails never escapes as an exception (the model's `parse` is
total); it is reported as a single `Info` diagnostic embedding the raw
frame text, frames are processed independently (a complete frame followed
by more input contributes exactly its own classification, and later frames
are classified as if fed alone), and the spec's concrete malformed-then-ok
stream yields the diagnostic followed by the correctly classified ack. -/
theorem malformed_frame_resilience :
    (∀ message : List Char,
      starts_with FLOWh (strip_semi_nl message) = true →
      conv_flow 0 (split_comma ((strip_semi_nl message).drop FLOWh.length)) =
        none →
      parse message = some (.info (parse_err_msg message)) ∧
        ∃ pre post, parse_err_msg message = pre ++ message ++ post) ∧
    (∀ message : List Char,
      starts_with TEMPh (strip_semi_nl message) = true →
      conv_temp 0 (split_comma ((strip_semi_nl message).drop TEMPh.length)) =
        none →
      parse message = some (.info (parse_err_msg message)) ∧
        ∃ pre post, parse_err_msg message = pre ++ message ++ post) ∧
    (∀ message : List Char,
      starts_with DOh (strip_semi_nl message) = true →
      conv_do (split_comma ((strip_semi_nl message).drop DOh.length)) = none →
      parse message = some (.info (parse_err_msg message)) ∧
        ∃ pre post, parse_err_msg message = pre ++ message ++ post) ∧
    (∀ f rest : List Char, hasDelim f = false →
      feedParse [] ((f ++ [';', '\n']) ++ rest) =
        ((parse (f ++ [';', '\n'])).toList ++ (feedParse [] rest).1,
         (feedParse [] rest).2)) ∧
    feedParse [] (("$FLOW,oops;\n$OK,0001;\n").toList) =
      ([.info (parse_err_msg (("$FLOW,oops;\n").toList)),
        .ok_data [['0', '0', '0', '1']]], []) := by
  refine ⟨?_, ?_, ?_, ?_, by decide⟩
  · intro message hflow hconv
    have hne : strip_semi_nl message ≠ [] := by
      intro h0
      rw [h0] at hflow
      exact absurd hflow (by decide)
    refine ⟨?_, ("Error parsing MCU message: '").toList,
      ("'. Error: invalid literal").toList, rfl⟩
    unfold parse
    simp [hne, hflow, hconv]
  · intro message htemp hconv
    have hne : strip_semi_nl message ≠ [] := by
      intro h0
      rw [h0] at htemp
      exact absurd htemp (by decide)
    refine ⟨?_, ("Error parsing MCU message: '").toList,
      ("'. Error: invalid literal").toList, rfl⟩
    unfold parse
    simp [hne, htemp, hconv, temp_not_flow htemp]
  · intro message hdo hconv
    have hne : strip_semi_nl message ≠ [] := by
      intro h0
      rw [h0] at hdo
      exact absurd hdo (by decide)
    refine ⟨?_, ("Error parsing MCU message: '").toList,
      ("'. Error: invalid literal").toList, rfl⟩
    unfold parse
    simp [hne, hdo, hconv, do_not_flow hdo, do_not_temp hdo]
  · intro f rest hf
    have hassoc : (f ++ [';', '\n']) ++ rest = f ++ ';' :: '\n' :: rest := by
      simp
    have hd := drainAux_first_frame [] rest hf
    simp only [List.reverse_nil, List.nil_append] at hd
    unfold feedParse drain
    rw [List.nil_append, List.nil_append, hassoc, hd]
    cases hp : parse (f ++ [';', '\n']) with
    | none => simp [List.filterMap_cons, hp]
    | some ev => simp [List.filterMap_cons, hp]

/-- Witness for C4 at the spec's concrete malformed frame. -/
theorem malformed_frame_resilience_witness :
    parse (("$FLOW,oops;\n").toList) =
      some (.info (parse_err_msg (("$FLOW,oops;\n").toList))) :=
  (malformed_frame_resilience.1 (("$FLOW,oops;\n").toList)
    (by decide) (by decide)).1

end MCU

namespace MCU

/-! ## Worker state-machine lemmas -/

theorem handle_mcu_ack_fields (s : WorkerState) (payload : List (List Char)) :
    (handle_mcu_ack s payload).1.has_mcu = s.has_mcu ∧
    (handle_mcu_ack s payload).1.connected = s.connected ∧
    (handle_mcu_ack s payload).1.command_queue = s.command_queue ∧
    (handle_mcu_ack s payload).1.serial_buffer = s.serial_buffer ∧
    (handle_mcu_ack s payload).1.writes = s.writes ∧
    (handle_mcu_ack s payload).1.submits = s.submits ∧
    (handle_mcu_ack s payload).1.emitted = s.emitted ∧
    (handle_mcu_ack s payload).1.log_msgs = s.log_msgs := by
  cases payload with
  | nil => exact ⟨rfl, rfl, rfl, rfl, rfl, rfl, rfl, rfl⟩
  | cons a rest =>
    by_cases h : some a = s.waiting_for_com_id
    · simp [handle_mcu_ack, h]
    · simp [handle_mcu_ack, h]

theorem dispatch_frame_fields (s : WorkerState) (ev : MCUEvent) :
    (dispatch_frame s ev).1.has_mcu = s.has_mcu ∧
    (dispatch_frame s ev).1.connected = s.connected ∧
    (dispatch_frame s ev).1.command_queue = s.command_queue ∧
    (dispatch_frame s ev).1.serial_buffer = s.serial_buffer ∧
    (dispatch_frame s ev).1.writes = s.writes ∧
    (dispatch_frame s ev).1.submits = s.submits := by
  cases ev with
  | ok_data payload =>
    have h := handle_mcu_ack_fields { s with emitted := s.emitted ++ [.ok_data payload] } payload
    exact ⟨h.1, h.2.1, h.2.2.1, h.2.2.2.1, h.2.2.2.2.1, h.2.2.2.2.2.1⟩
  | info txt => exact ⟨rfl, rfl, rfl, rfl, rfl, rfl⟩
  | flow_data p => exact ⟨rfl, rfl, rfl, rfl, rfl, rfl⟩
  | temp_data p => exact ⟨rfl, rfl, rfl, rfl, rfl, rfl⟩
  | do_data a b c => exact ⟨rfl, rfl, rfl, rfl, rfl, rfl⟩
  | error_data p => exact ⟨rfl, rfl, rfl, rfl, rfl, rfl⟩

theorem dispatch_all_fields :
    ∀ (evs : List MCUEvent) (s : WorkerState),
    (dispatch_all s evs).1.has_mcu = s.has_mcu ∧
    (dispatch_all s evs).1.connected = s.connected ∧
    (dispatch_all s evs).1.command_queue = s.command_queue ∧
    (dispatch_all s evs).1.serial_buffer = s.serial_buffer ∧
    (dispatch_all s evs).1.writes = s.writes ∧
    (dispatch_all s evs).1.submits = s.submits := by
  intro evs
  induction evs with
  | nil => intro s; exact ⟨rfl, rfl, rfl, rfl, rfl, rfl⟩
  | cons ev evs ih =>
    intro s
    have h1 := dispatch_frame_fields s ev
    have h2 := ih (dispatch_frame s ev).1
    simp only [dispatch_all]
    exact ⟨h2.1.trans h1.1, h2.2.1.trans h1.2.1, h2.2.2.1.trans h1.2.2.1,
      h2.2.2.2.1.trans h1.2.2.2.1, h2.2.2.2.2.1.trans h1.2.2.2.2.1,
      h2.2.2.2.2.2.trans h1.2.2.2.2.2⟩

theorem dispatch_all_emitted :
    ∀ (evs : List MCUEvent) (s : WorkerState),
    (dispatch_all s evs).1.emitted = s.emitted ++ evs := by
  intro evs
  induction evs with
  | nil => intro s; simp [dispatch_all]
  | cons ev evs ih =>
    intro s
    have hframe : (dispatch_frame s ev).1.emitted = s.emitted ++ [ev] := by
      cases ev with
      | ok_data payload =>
        exact (handle_mcu_ack_fields _ payload).2.2.2.2.2.2.1
      | info txt => rfl
      | flow_data p => rfl
      | temp_data p => rfl
      | do_data a b c => rfl
      | error_data p => rfl
    simp only [dispatch_all]
    rw [ih, hframe, List.append_assoc]
    rfl

end MCU

namespace MCU

/-- Commands resolved so far: matched acks, timeouts, and outstanding
commands discarded by a disconnect. -/
def resolved_count (s : WorkerState) : Nat :=
  s.acked_count + s.timeout_count + s.discard_count

/-- 1 when the outstanding slot is occupied, else 0. -/
def occupancy (s : WorkerState) : Nat :=
  if s.waiting_for_com_id.isSome then 1 else 0

/-- The single-flight invariant: every write is accounted for by a
resolution or by the currently outstanding slot. -/
def flight_inv (s : WorkerState) : Prop :=
  s.writes.length = resolved_count s + occupancy s

theorem flight_inv_process_queue {s : WorkerState} (h : flight_inv s) :
    flight_inv (process_queue s) := by
  unfold process_queue
  cases hw : s.waiting_for_com_id with
  | some x => simpa [hw] using h
  | none =>
    cases hq : s.command_queue with
    | nil => simpa [hw, hq] using h
    | cons hd tl =>
      obtain ⟨command, com_id⟩ := hd
      by_cases hc : s.connected && s.has_mcu
      · unfold flight_inv resolved_count occupancy at h ⊢
        simp only [hw, hq, hc, if_true, Option.isSome] at h ⊢
        simp_all
      · unfold flight_inv resolved_count occupancy at h ⊢
        simp only [hw, hq, hc, if_false] at h ⊢
        simp_all

theorem flight_inv_handle_ack {s : WorkerState} (payload : List (List Char))
    (h : flight_inv s) : flight_inv (handle_mcu_ack s payload).1 := by
  cases payload with
  | nil => exact h
  | cons a rest =>
    by_cases hm : some a = s.waiting_for_com_id
    · have hsome : s.waiting_for_com_id.isSome = true := by rw [← hm]; rfl
      have hres : (handle_mcu_ack s (a :: rest)).1 =
          { s with ack_timer_running := false, waiting_for_com_id := none,
                   acked_count := s.acked_count + 1 } := by
        simp [handle_mcu_ack, hm]
      rw [hres]
      unfold flight_inv resolved_count occupancy at h ⊢
      simp only [hsome, if_pos] at h
      simp only [Option.isSome_none, Bool.false_eq_true, if_false]
      simp at h ⊢
      omega
    · simpa [handle_mcu_ack, hm] using h

theorem flight_inv_dispatch_frame {s : WorkerState} (ev : MCUEvent)
    (h : flight_inv s) : flight_inv (dispatch_frame s ev).1 := by
  cases ev with
  | ok_data payload =>
    refine flight_inv_handle_ack payload ?_
    simpa [flight_inv, resolved_count, occupancy] using h
  | info txt => simpa [flight_inv, resolved_count, occupancy, dispatch_frame] using h
  | flow_data p => simpa [flight_inv, resolved_count, occupancy, dispatch_frame] using h
  | temp_data p => simpa [flight_inv, resolved_count, occupancy, dispatch_frame] using h
  | do_data a b c => simpa [flight_inv, resolved_count, occupancy, dispatch_frame] using h
  | error_data p => simpa [flight_inv, resolved_count, occupancy, dispatch_frame] using h

theorem flight_inv_dispatch_all :
    ∀ (evs : List MCUEvent) {s : WorkerState}, flight_inv s →
      flight_inv (dispatch_all s evs).1 := by
  intro evs
  induction evs with
  | nil => intro s h; exact h
  | cons ev evs ih =>
    intro s h
    exact ih (flight_inv_dispatch_frame ev h)

theorem flight_inv_step {s : WorkerState} (e : WEvent) (h : flight_inv s) :
    flight_inv (step s e) := by
  cases e with
  | submit command com_id =>
    refine flight_inv_process_queue ?_
    simpa [flight_inv, resolved_count, occupancy] using h
  | recv chunk =>
    have hbuf : flight_inv { s with serial_buffer :=
        (drain (s.serial_buffer ++ chunk)).2 } := by
      simpa [flight_inv, resolved_count, occupancy] using h
    have hd := flight_inv_dispatch_all
      ((drain (s.serial_buffer ++ chunk)).1.filterMap parse) hbuf
    simp only [step, read_message]
    split
    · split
      · exact flight_inv_process_queue hd
      · exact hd
    · exact h
  | timerFire =>
    by_cases ht : s.ack_timer_running
    · simp only [step, ht, if_true]
      unfold handle_ack_timeout
      cases hw : s.waiting_for_com_id with
      | none => simpa [flight_inv, resolved_count, occupancy, hw] using h
      | some cid =>
        simp only
        refine flight_inv_process_queue ?_
        unfold flight_inv resolved_count occupancy at h ⊢
        simp only [hw] at h
        simp at h ⊢
        omega
    · simpa [step, ht] using h
  | connect port_found opened =>
    by_cases hc : s.connected
    · simpa [step, connect_mcu, hc] using h
    · cases port_found with
      | true =>
        cases opened with
        | true => simpa [step, connect_mcu, hc, flight_inv, resolved_count, occupancy] using h
        | false => simpa [step, connect_mcu, hc, flight_inv, resolved_count, occupancy] using h
      | false => simpa [step, connect_mcu, hc, flight_inv, resolved_count, occupancy] using h
  | disconnect =>
    unfold step disconnect_mcu flight_inv resolved_count occupancy
    unfold flight_inv resolved_count occupancy at h
    cases hw : s.waiting_for_com_id with
    | none => simp [hw] at h ⊢; omega
    | some cid => simp [hw] at h ⊢; omega

theorem flight_inv_run :
    ∀ (evs : List WEvent) {s : WorkerState}, flight_inv s →
      flight_inv (run s evs) := by
  intro evs
  induction evs with
  | nil => intro s h; exact h
  | cons e evs ih =>
    intro s h
    exact ih (flight_inv_step e h)

end MCU

namespace MCU

theorem process_queue_writes (s : WorkerState) :
    (process_queue s).writes = s.writes ∨
      ∃ x, (process_queue s).writes = s.writes ++ [x] := by
  unfold process_queue
  cases hw : s.waiting_for_com_id with
  | some x => left; rfl
  | none =>
    cases hq : s.command_queue with
    | nil => left; rfl
    | cons hd tl =>
      obtain ⟨command, com_id⟩ := hd
      by_cases hc : s.connected && s.has_mcu
      · right
        exact ⟨(command, com_id), by simp [hc]⟩
      · left
        simp [hc]

theorem step_writes_le (s : WorkerState) (e : WEvent) :
    (step s e).writes.length ≤ s.writes.length + 1 := by
  have hpq : ∀ t : WorkerState, t.writes = s.writes →
      (process_queue t).writes.length ≤ s.writes.length + 1 := by
    intro t ht
    rcases process_queue_writes t with h | ⟨x, h⟩
    · rw [h, ht]; omega
    · rw [h, ht]; simp
  cases e with
  | submit command com_id =>
    exact hpq _ rfl
  | recv chunk =>
    simp only [step, read_message]
    split
    · have hdx := (dispatch_all_fields
        ((drain (s.serial_buffer ++ chunk)).1.filterMap parse)
        { s with serial_buffer := (drain (s.serial_buffer ++ chunk)).2 }).2.2.2.2.1
      split
      · exact hpq _ hdx
      · rw [hdx]
        show s.writes.length ≤ s.writes.length + 1
        omega
    · omega
  | timerFire =>
    simp only [step]
    split
    · unfold handle_ack_timeout
      cases hw : s.waiting_for_com_id with
      | none =>
        show s.writes.length ≤ s.writes.length + 1
        omega
      | some cid =>
        exact hpq _ rfl
    · omega
  | connect port_found opened =>
    simp only [step, connect_mcu]
    split
    · omega
    · split
      · split
        · show s.writes.length ≤ s.writes.length + 1
          omega
        · show s.writes.length ≤ s.writes.length + 1
          omega
      · show s.writes.length ≤ s.writes.length + 1
        omega
  | disconnect =>
    show s.writes.length ≤ s.writes.length + 1
    omega

/-- C1.  Single-flight: along every event trace from the initial state,
the number of transport writes always equals the number of resolved
commands (matched ack, timeout, or disconnect discard) plus one exactly
when the outstanding slot `waiting_for_com_id` is occupied — so the slot is
occupied iff a written command is unresolved, the n-th write can only
happen once n-1 commands have been resolved, and no event can produce more
than one write. -/
theorem single_flight (evs : List WEvent) :
    (run initState evs).writes.length =
      resolved_count (run initState evs) + occupancy (run initState evs) ∧
    (run initState evs).writes.length ≤ resolved_count (run initState evs) + 1 ∧
    ∀ e : WEvent, (step (run initState evs) e).writes.length ≤
      (run initState evs).writes.length + 1 := by
  have h0 : flight_inv initState := by
    simp [flight_inv, resolved_count, occupancy, initState]
  have hinv : flight_inv (run initState evs) := flight_inv_run evs h0
  refine ⟨hinv, ?_, fun e => step_writes_le _ e⟩
  have hocc : occupancy (run initState evs) ≤ 1 := by
    unfold occupancy
    split
    · omega
    · omega
  unfold flight_inv at hinv
  omega

end MCU


namespace MCU

/-! ### Step characterization lemmas -/

theorem process_queue_skip {s : WorkerState} {x : List Char}
    (hw : s.waiting_for_com_id = some x) : process_queue s = s := by
  unfold process_queue
  rw [hw]

theorem process_queue_empty {s : WorkerState}
    (hq : s.command_queue = []) : process_queue s = s := by
  unfold process_queue
  rw [hq]
  cases s.waiting_for_com_id <;> rfl

theorem process_queue_write {s : WorkerState} {command com_id : List Char}
    {tl : List (List Char × List Char)}
    (hw : s.waiting_for_com_id = none)
    (hq : s.command_queue = (command, com_id) :: tl)
    (hc : (s.connected && s.has_mcu) = true) :
    process_queue s =
      { s with command_queue := tl, waiting_for_com_id := some com_id,
               writes := s.writes ++ [(command, com_id)],
               ack_timer_running := true } := by
  unfold process_queue
  rw [hw, hq]
  simp only [hc, if_true]

theorem process_queue_drop {s : WorkerState} {command com_id : List Char}
    {tl : List (List Char × List Char)}
    (hw : s.waiting_for_com_id = none)
    (hq : s.command_queue = (command, com_id) :: tl)
    (hc : (s.connected && s.has_mcu) = false) :
    process_queue s =
      { s with command_queue := tl,
               log_msgs := s.log_msgs ++ [drop_msg com_id] } := by
  unfold process_queue
  rw [hw, hq]
  simp only [hc, Bool.false_eq_true, if_false]

theorem read_message_eq {s : WorkerState} (chunk : List Char)
    (hm : s.has_mcu = true) :
    read_message s chunk =
      (if (dispatch_all
            { s with serial_buffer := (drain (s.serial_buffer ++ chunk)).2 }
            ((drain (s.serial_buffer ++ chunk)).1.filterMap parse)).2 = true
       then process_queue (dispatch_all
            { s with serial_buffer := (drain (s.serial_buffer ++ chunk)).2 }
            ((drain (s.serial_buffer ++ chunk)).1.filterMap parse)).1
       else (dispatch_all
            { s with serial_buffer := (drain (s.serial_buffer ++ chunk)).2 }
            ((drain (s.serial_buffer ++ chunk)).1.filterMap parse)).1) := by
  unfold read_message
  rw [if_pos hm]

theorem read_message_no_mcu {s : WorkerState} (chunk : List Char)
    (hm : s.has_mcu = false) : read_message s chunk = s := by
  unfold read_message
  rw [hm]
  rfl

end MCU

namespace MCU

/-- The FIFO invariant while connected: the submission history equals the
write history followed by the still-pending queue. -/
def fifo_inv (s : WorkerState) : Prop :=
  s.connected = true ∧ s.has_mcu = true ∧
    s.submits = s.writes ++ s.command_queue

theorem fifo_inv_process_queue {s : WorkerState} (h : fifo_inv s) :
    fifo_inv (process_queue s) := by
  obtain ⟨hc, hm, heq⟩ := h
  cases hw : s.waiting_for_com_id with
  | some x => rw [process_queue_skip hw]; exact ⟨hc, hm, heq⟩
  | none =>
    cases hq : s.command_queue with
    | nil => rw [process_queue_empty hq]; exact ⟨hc, hm, heq⟩
    | cons hd tl =>
      obtain ⟨command, com_id⟩ := hd
      rw [process_queue_write hw hq (by rw [hc, hm]; rfl)]
      refine ⟨hc, hm, ?_⟩
      show s.submits = (s.writes ++ [(command, com_id)]) ++ tl
      rw [heq, hq, List.append_assoc]
      rfl

theorem fifo_inv_step {s : WorkerState} (e : WEvent)
    (hne : e ≠ WEvent.disconnect) (h : fifo_inv s) : fifo_inv (step s e) := by
  obtain ⟨hc, hm, heq⟩ := h
  cases e with
  | submit command com_id =>
    refine fifo_inv_process_queue ⟨hc, hm, ?_⟩
    show s.submits ++ [(command, com_id)] =
      s.writes ++ (s.command_queue ++ [(command, com_id)])
    rw [heq, List.append_assoc]
  | recv chunk =>
    show fifo_inv (read_message s chunk)
    rw [read_message_eq chunk hm]
    have hd := dispatch_all_fields
      ((drain (s.serial_buffer ++ chunk)).1.filterMap parse)
      { s with serial_buffer := (drain (s.serial_buffer ++ chunk)).2 }
    have hinner : fifo_inv (dispatch_all
        { s with serial_buffer := (drain (s.serial_buffer ++ chunk)).2 }
        ((drain (s.serial_buffer ++ chunk)).1.filterMap parse)).1 := by
      refine ⟨?_, ?_, ?_⟩
      · rw [hd.2.1]; exact hc
      · rw [hd.1]; exact hm
      · rw [hd.2.2.2.2.2, hd.2.2.2.2.1, hd.2.2.1]
        exact heq
    split
    · exact fifo_inv_process_queue hinner
    · exact hinner
  | timerFire =>
    simp only [step]
    split
    · unfold handle_ack_timeout
      cases hw : s.waiting_for_com_id with
      | none => exact ⟨hc, hm, heq⟩
      | some cid => exact fifo_inv_process_queue ⟨hc, hm, heq⟩
    · exact ⟨hc, hm, heq⟩
  | connect port_found opened =>
    show fifo_inv (connect_mcu s port_found opened)
    unfold connect_mcu
    rw [if_pos hc]
    exact ⟨hc, hm, heq⟩
  | disconnect => exact absurd rfl hne

theorem fifo_inv_run :
    ∀ (evs : List WEvent) {s : WorkerState},
      (∀ e ∈ evs, e ≠ WEvent.disconnect) → fifo_inv s →
      fifo_inv (run s evs) := by
  intro evs
  induction evs with
  | nil => intro s _ h; exact h
  | cons e evs ih =>
    intro s hnd h
    exact ih (fun x hx => hnd x (List.mem_cons_of_mem e hx))
      (fifo_inv_step e (hnd e (List.mem_cons_self e evs)) h)

/-- C2.  FIFO order: starting from a freshly connected worker, along any
event trace without a disconnect, the submission history always equals the
write history followed by the still-pending queue — so commands reach the
transport exactly in submission order, with no reordering, no priority and
no cancellation of a pending command, regardless of how acks and timeouts
interleave with submissions. -/
theorem fifo_order (evs : List WEvent)
    (hnd : ∀ e ∈ evs, e ≠ WEvent.disconnect) :
    (run (step initState (.connect true true)) evs).submits =
      (run (step initState (.connect true true)) evs).writes ++
        (run (step initState (.connect true true)) evs).command_queue ∧
    ∃ t, (run (step initState (.connect true true)) evs).writes ++ t =
      (run (step initState (.connect true true)) evs).submits := by
  have h0 : fifo_inv (step initState (.connect true true)) := by
    exact ⟨rfl, rfl, rfl⟩
  have h := fifo_inv_run evs hnd h0
  exact ⟨h.2.2, ⟨_, h.2.2.symm⟩⟩

/-- Witness for C2 on the empty trace. -/
theorem fifo_order_witness :
    (run (step initState (.connect true true)) []).submits =
      (run (step initState (.connect true true)) []).writes ++
        (run (step initState (.connect true true)) []).command_queue :=
  (fifo_order [] (by simp)).1

end MCU


namespace MCU

theorem handle_ack_timeout_some {s : WorkerState} {cid : List Char}
    (hw : s.waiting_for_com_id = some cid) :
    handle_ack_timeout s = process_queue
      { s with waiting_for_com_id := none,
               timeout_count := s.timeout_count + 1,
               log_msgs := s.log_msgs ++ [timeout_msg cid] } := by
  unfold handle_ack_timeout
  rw [hw]

theorem handle_ack_timeout_none {s : WorkerState}
    (hw : s.waiting_for_com_id = none) : handle_ack_timeout s = s := by
  unfold handle_ack_timeout
  rw [hw]

theorem process_queue_cases (m : WorkerState)
    (hw : m.waiting_for_com_id = none)
    (hc : (m.connected && m.has_mcu) = true) :
    (m.command_queue = [] ∧ process_queue m = m) ∨
    ∃ command com_id tl, m.command_queue = (command, com_id) :: tl ∧
      process_queue m =
        { m with command_queue := tl, waiting_for_com_id := some com_id,
                 writes := m.writes ++ [(command, com_id)],
                 ack_timer_running := true } := by
  cases hq : m.command_queue with
  | nil => exact Or.inl ⟨rfl, process_queue_empty hq⟩
  | cons hd tl =>
    obtain ⟨command, com_id⟩ := hd
    exact Or.inr ⟨command, com_id, tl, rfl, process_queue_write hw hq hc⟩

/-- C5.  Timeout eviction: when the ack timer fires while a command is
outstanding (and the transport is connected, the only way the timer can be
armed), the scheduler logs a timeout for that id, clears the outstanding
slot, and immediately pops and sends the next queued command if any; the
timed-out command is never re-queued and never written again. -/
theorem timeout_eviction (s : WorkerState) (cid : List Char)
    (ht : s.ack_timer_running = true)
    (hw : s.waiting_for_com_id = some cid)
    (hc : s.connected = true) (hm : s.has_mcu = true) :
    timeout_msg cid ∈ (step s .timerFire).log_msgs ∧
    (step s .timerFire).command_queue = s.command_queue.tail ∧
    (s.command_queue = [] → (step s .timerFire).waiting_for_com_id = none ∧
      (step s .timerFire).writes = s.writes ∧
      (step s .timerFire).ack_timer_running = false) ∧
    (∀ command com_id2 tl, s.command_queue = (command, com_id2) :: tl →
      (step s .timerFire).writes = s.writes ++ [(command, com_id2)] ∧
      (step s .timerFire).waiting_for_com_id = some com_id2 ∧
      (step s .timerFire).ack_timer_running = true) ∧
    (cid ∉ s.command_queue.map Prod.snd →
      cid ∉ (step s .timerFire).command_queue.map Prod.snd) ∧
    (cid ∉ s.command_queue.map Prod.snd →
      ∀ w ∈ (step s .timerFire).writes, w ∈ s.writes ∨ w.2 ≠ cid) := by
  have hgoal : step s .timerFire = process_queue
      { s with ack_timer_running := false, waiting_for_com_id := none,
               timeout_count := s.timeout_count + 1,
               log_msgs := s.log_msgs ++ [timeout_msg cid] } := by
    have h1 : step s .timerFire =
        handle_ack_timeout { s with ack_timer_running := false } := by
      simp only [step, ht, if_true]
    rw [h1]
    exact handle_ack_timeout_some
      (s := { s with ack_timer_running := false }) hw
  rw [hgoal]
  rcases process_queue_cases
      { s with ack_timer_running := false, waiting_for_com_id := none,
               timeout_count := s.timeout_count + 1,
               log_msgs := s.log_msgs ++ [timeout_msg cid] }
      rfl (show (s.connected && s.has_mcu) = true from by rw [hc, hm]; rfl)
    with ⟨hqnil, hpq⟩ | ⟨command, com_id2, tl, hq', hpq⟩
  · have hq0 : s.command_queue = [] := hqnil
    rw [hpq]
    refine ⟨List.mem_append_right _ (List.mem_singleton_self _), ?_,
      fun _ => ⟨rfl, rfl, rfl⟩, ?_, ?_, ?_⟩
    · show s.command_queue = s.command_queue.tail
      rw [hq0]
      rfl
    · intro command com_id2 tl heq2
      rw [hq0] at heq2
      exact absurd heq2 (by simp)
    · intro h
      exact h
    · intro _ w hwmem
      exact Or.inl hwmem
  · have hq0 : s.command_queue = (command, com_id2) :: tl := hq'
    rw [hpq]
    refine ⟨List.mem_append_right _ (List.mem_singleton_self _), ?_, ?_, ?_, ?_, ?_⟩
    · show tl = s.command_queue.tail
      rw [hq0]
      rfl
    · intro habs
      rw [hq0] at habs
      exact absurd habs (by simp)
    · intro command2 com_id3 tl2 heq2
      rw [hq0] at heq2
      cases heq2
      exact ⟨rfl, rfl, rfl⟩
    · intro hnotin
      rw [hq0] at hnotin
      show cid ∉ tl.map Prod.snd
      intro habs
      exact hnotin (by simpa using Or.inr habs)
    · intro hnotin w hwmem
      have hwmem2 : w ∈ s.writes ++ [(command, com_id2)] := hwmem
      rcases List.mem_append.mp hwmem2 with hin | hin
      · exact Or.inl hin
      · right
        have hwe : w = (command, com_id2) := by simpa using hin
        subst hwe
        intro habs
        rw [hq0] at hnotin
        refine hnotin ?_
        have hcc : com_id2 = cid := habs
        subst hcc
        simp

/-- A concrete state with one outstanding command and one queued command,
for the C5 witness. -/
def timeout_demo_state : WorkerState :=
  { initState with
      connected := true
      has_mcu := true
      ack_timer_running := true
      waiting_for_com_id := some ['0', '0', '0', '1']
      command_queue := [(("B,0002,1;\n").toList, ['0', '0', '0', '2'])] }

/-- Witness for C5: the timeout logs the timed-out id and immediately
writes the next queued command. -/
theorem timeout_eviction_witness :
    timeout_msg ['0', '0', '0', '1'] ∈
      (step timeout_demo_state .timerFire).log_msgs ∧
    (step timeout_demo_state .timerFire).writes =
      timeout_demo_state.writes ++
        [(("B,0002,1;\n").toList, ['0', '0', '0', '2'])] ∧
    (step timeout_demo_state .timerFire).waiting_for_com_id =
      some ['0', '0', '0', '2'] := by
  have h := timeout_eviction timeout_demo_state ['0', '0', '0', '1']
    rfl rfl rfl rfl
  have h4 := h.2.2.2.1 (("B,0002,1;\n").toList) ['0', '0', '0', '2'] [] rfl
  exact ⟨h.1, h4.1, h4.2.1⟩

end MCU

namespace MCU

theorem strip_semi_nl_app (l : List Char) :
    ∃ t, strip_semi_nl l ++ t = l.dropWhile is_delim_char := by
  refine ⟨((l.dropWhile is_delim_char).reverse.takeWhile is_delim_char).reverse, ?_⟩
  unfold strip_semi_nl
  rw [← List.reverse_append, List.takeWhile_append_dropWhile,
    List.reverse_reverse]

theorem parse_not_ok {message : List Char}
    (hok : starts_with OKh (strip_semi_nl message) = false) :
    ∀ payload, parse message ≠ some (.ok_data payload) := by
  intro payload hcontra
  unfold parse at hcontra
  simp_all
  obtain ⟨h1, h2⟩ := hcontra
  repeat' split at h2
  all_goals simp_all

theorem dispatch_frame_no_ack (s : WorkerState) (ev : MCUEvent)
    (hok : ∀ p, ev ≠ MCUEvent.ok_data p) :
    (dispatch_frame s ev).1.waiting_for_com_id = s.waiting_for_com_id ∧
    (dispatch_frame s ev).1.command_queue = s.command_queue ∧
    (dispatch_frame s ev).1.ack_timer_running = s.ack_timer_running ∧
    (dispatch_frame s ev).1.writes = s.writes ∧
    (dispatch_frame s ev).2 = false := by
  cases ev with
  | ok_data payload => exact absurd rfl (hok payload)
  | info txt => exact ⟨rfl, rfl, rfl, rfl, rfl⟩
  | flow_data p => exact ⟨rfl, rfl, rfl, rfl, rfl⟩
  | temp_data p => exact ⟨rfl, rfl, rfl, rfl, rfl⟩
  | do_data a b c => exact ⟨rfl, rfl, rfl, rfl, rfl⟩
  | error_data p => exact ⟨rfl, rfl, rfl, rfl, rfl⟩

/-- The wire form of an `$ERROR` frame: `$ERROR,<cid>,<body>;\n`. -/
def error_frame (cid body : List Char) : List Char :=
  ERRORh ++ cid ++ [','] ++ body ++ [';', '\n']

/-- C6.  Error frames do not release the outstanding command: receiving a
complete `$ERROR` frame — even one carrying the currently awaited
correlation id — leaves the outstanding slot, the pending queue, the ack
timer and the write history exactly as they were. -/
theorem error_frame_no_release (s : WorkerState) (cid body : List Char)
    (hbuf : s.serial_buffer = []) (hmcu : s.has_mcu = true)
    (hcid : '\n' ∉ cid) (hbody : '\n' ∉ body) :
    (step s (.recv (error_frame cid body))).waiting_for_com_id =
      s.waiting_for_com_id ∧
    (step s (.recv (error_frame cid body))).command_queue = s.command_queue ∧
    (step s (.recv (error_frame cid body))).ack_timer_running =
      s.ack_timer_running ∧
    (step s (.recv (error_frame cid body))).writes = s.writes := by
  have hpre_nl : '\n' ∉ ERRORh ++ cid ++ [','] ++ body := by
    intro hmem
    rcases List.mem_append.mp hmem with hmem1 | hmem1
    · rcases List.mem_append.mp hmem1 with hmem2 | hmem2
      · rcases List.mem_append.mp hmem2 with hmem3 | hmem3
        · exact absurd hmem3 (by decide)
        · exact hcid hmem3
      · exact absurd hmem2 (by decide)
    · exact hbody hmem1
  have hpre : hasDelim (ERRORh ++ cid ++ [','] ++ body) = false :=
    hasDelim_of_not_nl hpre_nl
  have hframe_eq : error_frame cid body =
      (ERRORh ++ cid ++ [','] ++ body) ++ ';' :: '\n' :: [] := by
    unfold error_frame
    simp
  have hdrain : drain (s.serial_buffer ++ error_frame cid body) =
      ([error_frame cid body], []) := by
    rw [hbuf, List.nil_append, hframe_eq]
    unfold drain
    rw [drainAux_first_frame [] [] hpre]
    simp [drainAux]
  -- the frame never parses as an ack
  have hok : starts_with OKh (strip_semi_nl (error_frame cid body)) = false := by
    by_contra hcon
    have hcon2 : starts_with OKh (strip_semi_nl (error_frame cid body)) = true := by
      cases hval : starts_with OKh (strip_semi_nl (error_frame cid body))
      · exact absurd hval hcon
      · rfl
    obtain ⟨u, hu⟩ := starts_with_spec _ _ hcon2
    obtain ⟨t, ht⟩ := strip_semi_nl_app (error_frame cid body)
    have hdropw : (error_frame cid body).dropWhile is_delim_char =
        error_frame cid body := by
      unfold error_frame ERRORh
      rfl
    rw [hdropw, hu] at ht
    rw [show error_frame cid body =
      '$' :: 'E' :: ('R' :: 'R' :: 'O' :: 'R' :: [','] ++ cid ++ [','] ++
        body ++ [';', '\n']) from by unfold error_frame ERRORh; simp] at ht
    rw [show (OKh ++ u) ++ t = '$' :: 'O' :: ('K' :: [','] ++ u ++ t) from by
      unfold OKh; simp] at ht
    have := (List.cons.injEq _ _ _ _).mp ht
    have h2 := (List.cons.injEq _ _ _ _).mp this.2
    exact absurd h2.1 (by decide)
  have hnotok := parse_not_ok hok
  -- dispatch the single frame
  have hstep : step s (.recv (error_frame cid body)) =
      read_message s (error_frame cid body) := rfl
  rw [hstep, read_message_eq _ hmcu, hdrain]
  cases hp : parse (error_frame cid body) with
  | none =>
    simp only [List.filterMap, hp]
    exact ⟨rfl, rfl, rfl, rfl⟩
  | some ev =>
    have hev : ∀ p, ev ≠ MCUEvent.ok_data p := by
      intro p habs
      exact hnotok p (habs ▸ hp)
    simp only [List.filterMap, hp]
    have hdf := dispatch_frame_no_ack
      { s with serial_buffer := [] } ev hev
    have hda : dispatch_all { s with serial_buffer := ([] : List Char) } [ev] =
        ((dispatch_frame { s with serial_buffer := ([] : List Char) } ev).1,
         (dispatch_frame { s with serial_buffer := ([] : List Char) } ev).2) := by
      unfold dispatch_all
      simp [dispatch_all]
    rw [hda]
    rw [hdf.2.2.2.2]
    simp only [Bool.false_eq_true, if_false]
    exact ⟨hdf.1, hdf.2.1, hdf.2.2.1, hdf.2.2.2.1⟩

/-- Witness for C6: an `$ERROR` frame carrying the awaited id `0001` leaves
the scheduler state untouched. -/
theorem error_frame_no_release_witness :
    (step { initState with has_mcu := true, connected := true,
                           ack_timer_running := true,
                           waiting_for_com_id := some ['0', '0', '0', '1'] }
        (.recv (error_frame ['0', '0', '0', '1'] (("boom").toList)))).waiting_for_com_id =
      some ['0', '0', '0', '1'] := by
  have h := error_frame_no_release
    { initState with has_mcu := true, connected := true,
                     ack_timer_running := true,
                     waiting_for_com_id := some ['0', '0', '0', '1'] }
    ['0', '0', '0', '1'] (("boom").toList) rfl rfl (by decide) (by decide)
  exact h.1

end MCU

namespace MCU

theorem process_queue_fields (t : WorkerState) :
    (process_queue t).connected = t.connected ∧
    (process_queue t).has_mcu = t.has_mcu ∧
    (process_queue t).serial_buffer = t.serial_buffer ∧
    (process_queue t).submits = t.submits ∧
    (process_queue t).emitted = t.emitted := by
  cases hw : t.waiting_for_com_id with
  | some x => rw [process_queue_skip hw]; exact ⟨rfl, rfl, rfl, rfl, rfl⟩
  | none =>
    cases hq : t.command_queue with
    | nil => rw [process_queue_empty hq]; exact ⟨rfl, rfl, rfl, rfl, rfl⟩
    | cons hd tl =>
      obtain ⟨command, com_id⟩ := hd
      by_cases hc : (t.connected && t.has_mcu) = true
      · rw [process_queue_write hw hq hc]; exact ⟨rfl, rfl, rfl, rfl, rfl⟩
      · have hc2 : (t.connected && t.has_mcu) = false := by
          cases hval : (t.connected && t.has_mcu)
          · rfl
          · exact absurd hval hc
        rw [process_queue_drop hw hq hc2]; exact ⟨rfl, rfl, rfl, rfl, rfl⟩

theorem read_message_emitted {s : WorkerState} (chunk : List Char)
    (hm : s.has_mcu = true) :
    (read_message s chunk).emitted =
      s.emitted ++ (feedParse s.serial_buffer chunk).1 := by
  rw [read_message_eq chunk hm]
  have hda := dispatch_all_emitted
    ((drain (s.serial_buffer ++ chunk)).1.filterMap parse)
    { s with serial_buffer := (drain (s.serial_buffer ++ chunk)).2 }
  split
  · rw [(process_queue_fields _).2.2.2.2, hda]
    rfl
  · rw [hda]
    rfl

/-- C7.  Disconnect reset: after `disconnect_mcu` the ack timer is stopped,
the pending queue is empty, no ack is awaited and the receive buffer is
cleared; a subsequent successful `connect_mcu` starts from that clean
state, so bytes received after the reconnect are parsed against an empty
buffer — a frame partially buffered before the disconnect is never
delivered. -/
theorem disconnect_reset (s : WorkerState) (chunk : List Char) :
    (step s .disconnect).ack_timer_running = false ∧
    (step s .disconnect).command_queue = [] ∧
    (step s .disconnect).waiting_for_com_id = none ∧
    (step s .disconnect).serial_buffer = [] ∧
    (step (step s .disconnect) (.connect true true)).serial_buffer = [] ∧
    (step (step s .disconnect) (.connect true true)).command_queue = [] ∧
    (step (step s .disconnect) (.connect true true)).waiting_for_com_id =
      none ∧
    (step (step (step s .disconnect) (.connect true true)) (.recv chunk)).emitted =
      (step (step s .disconnect) (.connect true true)).emitted ++
        (feedParse [] chunk).1 := by
  have hconn : step (step s .disconnect) (.connect true true) =
      { disconnect_mcu s with ack_timer_running := false, has_mcu := true,
                              connected := true,
                              log_msgs := (disconnect_mcu s).log_msgs ++
                                [conn_ok_msg] } := by
    show connect_mcu (disconnect_mcu s) true true = _
    unfold connect_mcu
    rw [if_neg (by simp [disconnect_mcu])]
    rfl
  refine ⟨rfl, rfl, rfl, rfl, ?_, ?_, ?_, ?_⟩
  · rw [hconn]; exact rfl
  · rw [hconn]; exact rfl
  · rw [hconn]; exact rfl
  · show (read_message (step (step s .disconnect) (.connect true true)) chunk).emitted = _
    rw [read_message_emitted chunk (by rw [hconn])]
    rw [hconn]
    try rfl

theorem handle_mcu_ack_no_match {s : WorkerState} {payload : List (List Char)}
    (h : ∀ a rest, payload = a :: rest → ¬(some a = s.waiting_for_com_id)) :
    handle_mcu_ack s payload = (s, false) := by
  cases payload with
  | nil => rfl
  | cons a rest =>
    simp only [handle_mcu_ack]
    rw [if_neg (h a rest rfl)]

theorem dispatch_frame_waiting_none {s : WorkerState} (ev : MCUEvent)
    (hw : s.waiting_for_com_id = none) :
    (dispatch_frame s ev).1.waiting_for_com_id = none ∧
    (dispatch_frame s ev).2 = false := by
  cases ev with
  | ok_data payload =>
    show (handle_mcu_ack
        { s with emitted := s.emitted ++ [MCUEvent.ok_data payload] }
        payload).1.waiting_for_com_id = none ∧
      (handle_mcu_ack
        { s with emitted := s.emitted ++ [MCUEvent.ok_data payload] }
        payload).2 = false
    rw [handle_mcu_ack_no_match (by
      intro a rest hpl
      show ¬(some a = s.waiting_for_com_id)
      rw [hw]
      simp)]
    exact ⟨hw, rfl⟩
  | info txt => exact ⟨hw, rfl⟩
  | flow_data p => exact ⟨hw, rfl⟩
  | temp_data p => exact ⟨hw, rfl⟩
  | do_data a b c => exact ⟨hw, rfl⟩
  | error_data p => exact ⟨hw, rfl⟩

theorem dispatch_all_waiting_none :
    ∀ (evs : List MCUEvent) {s : WorkerState},
      s.waiting_for_com_id = none →
      (dispatch_all s evs).1.waiting_for_com_id = none ∧
      (dispatch_all s evs).2 = false := by
  intro evs
  induction evs with
  | nil => intro s hw; exact ⟨hw, rfl⟩
  | cons ev evs ih =>
    intro s hw
    have h1 := dispatch_frame_waiting_none ev hw
    have h2 := ih (s := (dispatch_frame s ev).1) h1.1
    simp only [dispatch_all]
    exact ⟨h2.1, by rw [h1.2, h2.2]; rfl⟩

theorem submit_disconnected_core (s : WorkerState) (command com_id : List Char)
    (hconn : s.connected = false) (hw : s.waiting_for_com_id = none)
    (hq : s.command_queue = []) :
    submit_command s command com_id =
      { s with command_queue := [],
               submits := s.submits ++ [(command, com_id)],
               log_msgs := s.log_msgs ++ [drop_msg com_id] } := by
  unfold submit_command
  rw [process_queue_drop
    (s := { s with command_queue := s.command_queue ++ [(command, com_id)],
                   submits := s.submits ++ [(command, com_id)] })
    (show ({ s with command_queue := s.command_queue ++ [(command, com_id)],
                    submits := s.submits ++ [(command, com_id)] } :
        WorkerState).waiting_for_com_id = none from hw)
    (show ({ s with command_queue := s.command_queue ++ [(command, com_id)],
                    submits := s.submits ++ [(command, com_id)] } :
        WorkerState).command_queue = (command, com_id) :: [] from by
      show s.command_queue ++ [(command, com_id)] = (command, com_id) :: []
      rw [hq]
      rfl)
    (show (({ s with command_queue := s.command_queue ++ [(command, com_id)],
                     submits := s.submits ++ [(command, com_id)] } :
          WorkerState).connected &&
        ({ s with command_queue := s.command_queue ++ [(command, com_id)],
                  submits := s.submits ++ [(command, com_id)] } :
          WorkerState).has_mcu) = false from by
      show (s.connected && s.has_mcu) = false
      rw [hconn]
      try rfl)]

/-- While disconnected with nothing outstanding, the worker keeps an empty
queue and an empty outstanding slot. -/
def idle_disconnected (s : WorkerState) : Prop :=
  s.connected = false →
    s.waiting_for_com_id = none ∧ s.command_queue = []

theorem idle_disconnected_step {s : WorkerState} (e : WEvent)
    (h : idle_disconnected s) : idle_disconnected (step s e) := by
  cases e with
  | submit command com_id =>
    intro hdisc
    have hconn : s.connected = false := by
      have := (process_queue_fields { s with
        command_queue := s.command_queue ++ [(command, com_id)],
        submits := s.submits ++ [(command, com_id)] }).1
      rw [← this]
      exact hdisc
    obtain ⟨hw, hq⟩ := h hconn
    show ((submit_command s command com_id).waiting_for_com_id = none ∧
      (submit_command s command com_id).command_queue = [])
    rw [submit_disconnected_core s command com_id hconn hw hq]
    exact ⟨hw, rfl⟩
  | recv chunk =>
    intro hdisc
    have hdisc2 : (read_message s chunk).connected = false := hdisc
    show ((read_message s chunk).waiting_for_com_id = none ∧
      (read_message s chunk).command_queue = [])
    by_cases hm : s.has_mcu = true
    · rw [read_message_eq chunk hm] at hdisc2 ⊢
      have hconn : s.connected = false := by
        revert hdisc2
        split
        · intro hdisc2
          rw [(process_queue_fields _).1,
            (dispatch_all_fields _ _).2.1] at hdisc2
          exact hdisc2
        · intro hdisc2
          rw [(dispatch_all_fields _ _).2.1] at hdisc2
          exact hdisc2
      obtain ⟨hw, hq⟩ := h hconn
      have hwn := dispatch_all_waiting_none
        ((drain (s.serial_buffer ++ chunk)).1.filterMap parse)
        (s := { s with serial_buffer := (drain (s.serial_buffer ++ chunk)).2 })
        hw
      split
      · rw [hwn.2] at *
        simp_all
      · refine ⟨hwn.1, ?_⟩
        rw [(dispatch_all_fields _ _).2.2.1]
        exact hq
    · have hm2 : s.has_mcu = false := by
        cases hval : s.has_mcu
        · rfl
        · exact absurd hval hm
      rw [read_message_no_mcu chunk hm2] at hdisc2 ⊢
      exact h hdisc2
  | timerFire =>
    intro hdisc
    by_cases ht : s.ack_timer_running = true
    · have hstep : step s .timerFire =
          handle_ack_timeout { s with ack_timer_running := false } := by
        simp only [step, ht, if_true]
      have hdisc2 : (handle_ack_timeout
          { s with ack_timer_running := false }).connected = false := by
        rw [← hstep]
        exact hdisc
      have hconn : s.connected = false := by
        revert hdisc2
        unfold handle_ack_timeout
        cases hwx : ({ s with ack_timer_running := false } :
            WorkerState).waiting_for_com_id with
        | none => intro hdisc2; exact hdisc2
        | some cid =>
          intro hdisc2
          rw [(process_queue_fields _).1] at hdisc2
          exact hdisc2
      obtain ⟨hw, hq⟩ := h hconn
      rw [hstep]
      rw [handle_ack_timeout_none
        (show ({ s with ack_timer_running := false } :
          WorkerState).waiting_for_com_id = none from hw)]
      exact ⟨hw, hq⟩
    · have ht2 : s.ack_timer_running = false := by
        cases hval : s.ack_timer_running
        · rfl
        · exact absurd hval ht
      have hstep : step s .timerFire = s := by
        simp only [step, ht2, Bool.false_eq_true, if_false]
      rw [hstep] at hdisc ⊢
      exact h hdisc
  | connect port_found opened =>
    intro hdisc
    have hdisc2 : (connect_mcu s port_found opened).connected = false := hdisc
    show ((connect_mcu s port_found opened).waiting_for_com_id = none ∧
      (connect_mcu s port_found opened).command_queue = [])
    unfold connect_mcu at hdisc2 ⊢
    by_cases hc : s.connected = true
    · rw [if_pos hc] at hdisc2 ⊢
      exact h hdisc2
    · rw [if_neg hc] at hdisc2 ⊢
      have hcf : s.connected = false := by
        cases hval : s.connected
        · rfl
        · exact absurd hval hc
      cases port_found with
      | true =>
        cases opened with
        | true => exact absurd hdisc2 (by simp)
        | false => exact h hcf
      | false => exact h hcf
  | disconnect =>
    intro _
    exact ⟨rfl, rfl⟩

theorem idle_disconnected_run (evs : List WEvent) :
    idle_disconnected (run initState evs) := by
  have hgen : ∀ (l : List WEvent) (s : WorkerState),
      idle_disconnected s → idle_disconnected (run s l) := by
    intro l
    induction l with
    | nil => intro s h; exact h
    | cons e l ih => intro s h; exact ih _ (idle_disconnected_step e h)
  exact hgen evs initState (fun _ => ⟨rfl, rfl⟩)

/-- C8.  Submit while disconnected: in any reachable state where the
transport is not connected (so nothing is outstanding and the queue is
empty), `submit_command` pops and drops the command immediately with a log
entry — the queue is empty again when the call returns, nothing is written,
and nothing is left for a future connection. -/
theorem submit_while_disconnected (evs : List WEvent)
    (command com_id : List Char)
    (hdisc : (run initState evs).connected = false) :
    (step (run initState evs) (.submit command com_id)).command_queue = [] ∧
    (step (run initState evs) (.submit command com_id)).writes =
      (run initState evs).writes ∧
    drop_msg com_id ∈
      (step (run initState evs) (.submit command com_id)).log_msgs := by
  obtain ⟨hw, hq⟩ := idle_disconnected_run evs hdisc
  show ((submit_command (run initState evs) command com_id).command_queue = [] ∧
    (submit_command (run initState evs) command com_id).writes =
      (run initState evs).writes ∧
    drop_msg com_id ∈
      (submit_command (run initState evs) command com_id).log_msgs)
  rw [submit_disconnected_core (run initState evs) command com_id hdisc hw hq]
  exact ⟨rfl, rfl, List.mem_append_right _ (List.mem_singleton_self _)⟩

/-- Witness for C8: submitting on the freshly initialized (disconnected)
worker drops the command. -/
theorem submit_while_disconnected_witness :
    (step (run initState []) (.submit (("CMD,0001,1;\n").toList)
        ['0', '0', '0', '1'])).command_queue = [] ∧
    drop_msg ['0', '0', '0', '1'] ∈
      (step (run initState []) (.submit (("CMD,0001,1;\n").toList)
        ['0', '0', '0', '1'])).log_msgs := by
  have h := submit_while_disconnected [] (("CMD,0001,1;\n").toList)
    ['0', '0', '0', '1'] rfl
  exact ⟨h.1, h.2.2⟩

end MCU
